import Mathlib

/-!
Shallow embedding of the CBR-Movie similarity engine
(src/cbr.rs, src/movie.rs, src/main.rs, src/gui.rs).

Rust `f32` values are modelled by `F32`: finite values are carried as exact
rationals (arithmetic is idealized as exact, which is faithful for every
property below because each compares expressions built from the *same*
operations on both sides), while the IEEE special values NaN and the two
infinities are modelled explicitly, since several claims hinge on division
by zero.  The only zero that can appear as a divisor in the source is the
positive zero produced by casting `max - min`, a set cardinality, or a
string length to `f32`, so the model does not track the sign of zero.
Rust strings (`&str`) are modelled as `List Char` (Unicode scalar values),
with `str::len` (UTF-8 byte count) modelled by `byteLen`.
-/

namespace CBRMovie

/-- Model of a Rust `f32` value: exact rational for finite values, plus the
IEEE special values. -/
inductive F32 where
  | finite (q : ℚ)
  | inf
  | neginf
  | nan
deriving DecidableEq

namespace F32

/-- IEEE subtraction on the model (finite part exact). -/
def sub : F32 → F32 → F32
  | nan, _ => nan
  | _, nan => nan
  | finite p, finite q => finite (p - q)
  | finite _, inf => neginf
  | finite _, neginf => inf
  | inf, finite _ => inf
  | inf, inf => nan
  | inf, neginf => inf
  | neginf, finite _ => neginf
  | neginf, inf => neginf
  | neginf, neginf => nan

/-- IEEE addition on the model (finite part exact). -/
def add : F32 → F32 → F32
  | nan, _ => nan
  | _, nan => nan
  | finite p, finite q => finite (p + q)
  | finite _, inf => inf
  | finite _, neginf => neginf
  | inf, finite _ => inf
  | inf, inf => inf
  | inf, neginf => nan
  | neginf, finite _ => neginf
  | neginf, inf => nan
  | neginf, neginf => neginf

/-- IEEE multiplication on the model (finite part exact). -/
def mul : F32 → F32 → F32
  | nan, _ => nan
  | _, nan => nan
  | finite p, finite q => finite (p * q)
  | finite p, inf => if 0 < p then inf else if p < 0 then neginf else nan
  | inf, finite p => if 0 < p then inf else if p < 0 then neginf else nan
  | finite p, neginf => if 0 < p then neginf else if p < 0 then inf else nan
  | neginf, finite p => if 0 < p then neginf else if p < 0 then inf else nan
  | inf, inf => inf
  | inf, neginf => neginf
  | neginf, inf => neginf
  | neginf, neginf => inf

/-- IEEE division on the model (finite part exact; a zero divisor is the
positive zero, the only zero the source can produce as a divisor). -/
def div : F32 → F32 → F32
  | nan, _ => nan
  | _, nan => nan
  | finite p, finite q =>
      if q = 0 then (if p = 0 then nan else if 0 < p then inf else neginf)
      else finite (p / q)
  | finite _, inf => finite 0
  | finite _, neginf => finite 0
  | inf, finite q => if 0 ≤ q then inf else neginf
  | neginf, finite q => if 0 ≤ q then neginf else inf
  | inf, inf => nan
  | inf, neginf => nan
  | neginf, inf => nan
  | neginf, neginf => nan

/-- IEEE absolute value on the model. -/
def abs : F32 → F32
  | finite q => finite |q|
  | inf => inf
  | neginf => inf
  | nan => nan

end F32

/-- Wrapping `u32` subtraction (`max - min` in release mode); for arguments
below `2^32` with the subtrahend not larger it agrees with plain
subtraction. -/
def wrapSub (a b : ℕ) : ℕ := (a + 2 ^ 32 - b) % 2 ^ 32

/-- Embedding of `similarity_number` (src/cbr.rs lines 22-25):
`1.0 - (a as f32 - b as f32).abs() / (max - min) as f32`.  The `u32`
arguments are modelled as naturals and the casts as exact.  A real
`u32 → f32` cast rounds to nearest and is bit-exact only below `2^24`
(near `2^31` its unit in the last place is 256); any theorem below whose
truth depends on cast rounding therefore restricts to that exact range,
while the remaining statements are cast-robust. -/
def similarity_number (a b max min : ℕ) : F32 :=
  (F32.finite 1).sub
    (((F32.finite a).sub (F32.finite b)).abs.div (F32.finite (wrapSub max min)))

/-- Levenshtein edit distance over lists, the standard recurrence.  Models
`strsim::levenshtein`, which computes this distance over the `char`s
(Unicode scalar values) of its two `&str` arguments. -/
def levenshtein [DecidableEq α] : List α → List α → ℕ
  | [], ys => ys.length
  | x :: xs, [] => (x :: xs).length
  | x :: xs, y :: ys =>
      if x = y then levenshtein xs ys
      else 1 + Nat.min (levenshtein xs (y :: ys))
            (Nat.min (levenshtein (x :: xs) ys) (levenshtein xs ys))
termination_by a b => a.length + b.length
decreasing_by all_goals simp_arith

/-- UTF-8 byte width of one Unicode scalar value. -/
def utf8Len (c : Char) : ℕ :=
  if c.toNat < 0x80 then 1
  else if c.toNat < 0x800 then 2
  else if c.toNat < 0x10000 then 3
  else 4

/-- Models Rust `str::len`: the UTF-8 byte count of the string. -/
def byteLen (s : List Char) : ℕ := (s.map utf8Len).sum

/-- The UTF-8 encoding of one Unicode scalar value, as a byte list (used only
to express the byte-unit variant of edit distance in claim C7). -/
def utf8Bytes (c : Char) : List ℕ :=
  let v := c.toNat
  if v < 0x80 then [v]
  else if v < 0x800 then [0xC0 + v / 0x40, 0x80 + v % 0x40]
  else if v < 0x10000 then
    [0xE0 + v / 0x1000, 0x80 + v / 0x40 % 0x40, 0x80 + v % 0x40]
  else
    [0xF0 + v / 0x40000, 0x80 + v / 0x1000 % 0x40, 0x80 + v / 0x40 % 0x40,
      0x80 + v % 0x40]

/-- The UTF-8 byte sequence of a string (claim C7 only). -/
def strBytes (s : List Char) : List ℕ := (s.map utf8Bytes).flatten

/-- Embedding of `similarity_string` (src/cbr.rs lines 42-49).  Mirrors the
source: the both-empty guard, then
`1.0 - levenshtein(a, b) as f32 / a.len().max(b.len()) as f32`, where the
distance is over chars and the lengths are `str::len` byte counts. -/
def similarity_string (a b : List Char) : F32 :=
  if a = [] ∧ b = [] then F32.finite 1
  else
    (F32.finite 1).sub
      ((F32.finite (levenshtein a b)).div
        (F32.finite (Nat.max (byteLen a) (byteLen b))))

/-- Embedding of the `HasId` trait (src/cbr.rs lines 91-94). -/
class HasId (α : Type) where
  id : α → ℕ

/-- Embedding of `similarity_id` (src/cbr.rs lines 66-85): Jaccard index of
the two collections' id sets (`HashSet` modelled by `Finset`), `0.0` when the
union is empty. -/
def similarity_id [HasId α] (a b : List α) : F32 :=
  if (a.map HasId.id).toFinset ∪ (b.map HasId.id).toFinset = ∅ then F32.finite 0
  else
    (F32.finite ((a.map HasId.id).toFinset ∩ (b.map HasId.id).toFinset).card).div
      (F32.finite ((a.map HasId.id).toFinset ∪ (b.map HasId.id).toFinset).card)

/-- Embedding of `Genre` (src/movie.rs). -/
structure Genre where
  id : ℕ
  name : List Char
deriving DecidableEq

instance : HasId Genre := ⟨Genre.id⟩

/-- Embedding of `Keyword` (src/movie.rs). -/
structure Keyword where
  id : ℕ
  name : List Char
deriving DecidableEq

instance : HasId Keyword := ⟨Keyword.id⟩

/-- Embedding of `Company` (src/movie.rs). -/
structure Company where
  id : ℕ
  name : List Char
deriving DecidableEq

instance : HasId Company := ⟨Company.id⟩

/-- Embedding of `Country` (src/movie.rs). -/
structure Country where
  iso_3166_1 : List Char
  name : List Char
deriving DecidableEq

/-- Embedding of `Language` (src/movie.rs). -/
structure Language where
  iso_639_1 : List Char
  name : List Char
deriving DecidableEq

/-- Embedding of `Movie` (src/movie.rs lines 8-59), all fields, in source
order.  `f32`-valued display fields are carried as exact rationals. -/
structure Movie where
  budget : ℕ
  genres : List Genre
  homepage : List Char
  id : ℕ
  keywords : List Keyword
  original_language : List Char
  original_title : List Char
  overview : List Char
  popularity : ℚ
  production_companies : List Company
  production_countries : List Country
  release_date : List Char
  revenue : List Char
  runtime : Option ℚ
  spoken_languages : List Language
  status : List Char
  tagline : List Char
  title : List Char
  vote_average : ℚ
  vote_count : ℕ
deriving DecidableEq

instance : HasId Movie := ⟨Movie.id⟩

/-- Weight constant from src/movie.rs (0.3). -/
def BUDGET_WEIGHT : ℚ := 3 / 10

/-- Weight constant from src/movie.rs (1.0). -/
def GENRES_WEIGHT : ℚ := 1

/-- Weight constant from src/movie.rs (0.2). -/
def HOMEPAGE_WEIGHT : ℚ := 1 / 5

/-- Weight constant from src/movie.rs (2.0). -/
def KEYWORDS_WEIGHT : ℚ := 2

/-- Weight constant from src/movie.rs (1.0). -/
def PRODUCTION_COMPANIES_WEIGHT : ℚ := 1

/-- Weight constant from src/movie.rs (2.5). -/
def TITLE_WEIGHT : ℚ := 5 / 2

/-- Sum of all weights (src/movie.rs lines 196-201). -/
def TOTAL_WEIGHT : ℚ :=
  BUDGET_WEIGHT + GENRES_WEIGHT + HOMEPAGE_WEIGHT + KEYWORDS_WEIGHT +
    PRODUCTION_COMPANIES_WEIGHT + TITLE_WEIGHT

/-- Embedding of `Movie::similarity` (src/movie.rs lines 218-246): weighted
sum of the six per-field similarities, divided by `TOTAL_WEIGHT`.  The
source's intermediate `let` bindings (`budget_diff`, `genres_diff`,
`homepage_diff`, `keywords_diff`, `production_companies_diff`, `title_diff`,
`result`) are inlined, in source order. -/
def Movie.similarity (self other : Movie) (min_budget max_budget : ℕ) : F32 :=
  (((((((similarity_number self.budget other.budget max_budget min_budget).mul
    (F32.finite BUDGET_WEIGHT)).add
    ((similarity_id self.genres other.genres).mul
      (F32.finite GENRES_WEIGHT))).add
    ((similarity_string self.homepage other.homepage).mul
      (F32.finite HOMEPAGE_WEIGHT))).add
    ((similarity_id self.keywords other.keywords).mul
      (F32.finite KEYWORDS_WEIGHT))).add
    ((similarity_id self.production_companies other.production_companies).mul
      (F32.finite PRODUCTION_COMPANIES_WEIGHT))).add
    ((similarity_string self.title other.title).mul
      (F32.finite TITLE_WEIGHT))).div
    (F32.finite TOTAL_WEIGHT)

/-- Comparison of two rationals as an `Ordering`. -/
def qCompare (p q : ℚ) : Ordering :=
  if p < q then Ordering.lt else if p = q then Ordering.eq else Ordering.gt

/-- Models `f32::partial_cmp`: `none` exactly when either operand is NaN. -/
def rustCmp : F32 → F32 → Option Ordering
  | F32.nan, _ => none
  | _, F32.nan => none
  | F32.finite p, F32.finite q => some (qCompare p q)
  | F32.finite _, F32.inf => some Ordering.lt
  | F32.finite _, F32.neginf => some Ordering.gt
  | F32.inf, F32.finite _ => some Ordering.gt
  | F32.inf, F32.inf => some Ordering.eq
  | F32.inf, F32.neginf => some Ordering.gt
  | F32.neginf, F32.finite _ => some Ordering.lt
  | F32.neginf, F32.inf => some Ordering.lt
  | F32.neginf, F32.neginf => some Ordering.eq

/-- The sort comparator used in src/main.rs line 35 and src/gui.rs line 138:
entry `x` may stay before entry `y` when
`y.score.partial_cmp(x.score).unwrap_or(Equal)` is not `Greater`.  The score
is the second component; the first component is arbitrary carried data. -/
def sortLe (x y : α × F32) : Bool :=
  match (rustCmp y.2 x.2).getD Ordering.eq with
  | Ordering.gt => false
  | _ => true

/-- Stable insertion of one element into a list: `x` goes before the first
element `y` with `le x y`. -/
def insertSorted (le : α → α → Bool) (x : α) : List α → List α
  | [] => [x]
  | y :: ys => if le x y then x :: y :: ys else y :: insertSorted le x ys

/-- Stable insertion sort.  Models `Vec::sort_by`, which Rust documents as a
stable sort; on every score list the engine can produce, the comparator is a
total preorder on the list's entries, so every stable sort yields the same
output. -/
def stableSort (le : α → α → Bool) : List α → List α
  | [] => []
  | x :: xs => insertSorted le x (stableSort le xs)

/-- `movies.iter().map(|m| m.budget).min().unwrap_or(0)`
(src/main.rs line 22, src/gui.rs lines 87-92). -/
def minBudget (movies : List Movie) : ℕ := ((movies.map Movie.budget).min?).getD 0

/-- `movies.iter().map(|m| m.budget).max().unwrap_or(0)`
(src/main.rs line 23, src/gui.rs lines 95-100). -/
def maxBudget (movies : List Movie) : ℕ := ((movies.map Movie.budget).max?).getD 0

/-- The unsorted score list of `MovieSimilarityApp::calculate_similarities`
(src/gui.rs lines 124-132): each catalogue position paired with
`movie.similarity(reference, min_budget, max_budget)`, bounds taken from the
loaded catalogue. -/
def scoreEntries (movies : List Movie) (ref : Movie) : List (ℕ × F32) :=
  movies.enum.map
    (fun p => (p.1, Movie.similarity p.2 ref (minBudget movies) (maxBudget movies)))

/-- Embedding of `calculate_similarities` (src/gui.rs lines 117-140): score
every movie against the reference, then stable-sort by descending score. -/
def calculate_similarities (movies : List Movie) (ref : Movie) : List (ℕ × F32) :=
  stableSort sortLe (scoreEntries movies ref)

/-- The score list of src/main.rs lines 28-33, with each entry additionally
annotated by its original catalogue position (the source carries
`(&Movie, f32)`; the index is ghost data used only to state claims). -/
def scoreEntriesMain (movies : List Movie) (ref : Movie) :
    List ((ℕ × Movie) × F32) :=
  movies.enum.map
    (fun p => (p, Movie.similarity p.2 ref (minBudget movies) (maxBudget movies)))

/-- The sorted ranking of src/main.rs line 35 (stable sort by the same
comparator). -/
def rankMain (movies : List Movie) (ref : Movie) : List ((ℕ × Movie) × F32) :=
  stableSort sortLe (scoreEntriesMain movies ref)

/-- Embedding of the GUI top-K emission loop (src/gui.rs lines 487-494 and
552): walk the ranked list, skip entries whose catalogue index equals the
selected index, emit until `k` entries have been produced. -/
def topKView (k : ℕ) (selectedIdx : ℕ) : List (ℕ × F32) → List (ℕ × F32)
  | [] => []
  | e :: rest =>
      if k = 0 then []
      else if e.1 = selectedIdx then topKView k selectedIdx rest
      else e :: topKView (k - 1) selectedIdx rest

/-- Embedding of the CLI top-K emission loop (src/main.rs lines 41-50): walk
the ranked list, skip entries whose movie id equals the reference movie's id,
emit until `k` entries have been produced. -/
def topKMain (k : ℕ) (refId : ℕ) :
    List ((ℕ × Movie) × F32) → List ((ℕ × Movie) × F32)
  | [] => []
  | e :: rest =>
      if k = 0 then []
      else if e.1.2.id = refId then topKMain k refId rest
      else e :: topKMain (k - 1) refId rest

/-- Outcome of running the CLI pipeline on a catalogue: `&movies[0]`
(src/main.rs line 25) panics on an empty catalogue, otherwise the ranking and
the top-5 emission run. -/
inductive MainOutcome where
  | panicked
  | ok (entries : List ((ℕ × Movie) × F32))
deriving DecidableEq

/-- Embedding of the query part of `main` (src/main.rs lines 22-50):
reference is `movies[0]`, which panics when the catalogue is empty; bounds
default to `(0, 0)` on an empty catalogue via `unwrap_or(0)`. -/
def mainRun (movies : List Movie) : MainOutcome :=
  match movies.get? 0 with
  | none => MainOutcome.panicked
  | some ref => MainOutcome.ok (topKMain 5 ref.id (rankMain movies ref))

/-- The distinct-identifier set of a collection of tagged items
(`HashSet<u32>` built from the ids). -/
def idSet [HasId α] (l : List α) : Finset ℕ := (l.map HasId.id).toFinset

/-- Modelled from the spec (section 4.3 wording, for comparison in claim C8):
the Jaccard index `|A ∩ B| / |A ∪ B|` of two identifier sets, `0` when the
union is empty. -/
def jaccardSpec (A B : Finset ℕ) : ℚ :=
  if A ∪ B = ∅ then 0 else ((A ∩ B).card : ℚ) / ((A ∪ B).card : ℚ)

/-- A concrete movie with empty tagged collections (all weights of the
collection fields contribute nothing to self-similarity). -/
def movieA : Movie :=
  { budget := 0, genres := [], homepage := [], id := 1, keywords := [],
    original_language := [], original_title := [], overview := [],
    popularity := 0, production_companies := [], production_countries := [],
    release_date := [], revenue := [], runtime := none, spoken_languages := [],
    status := [], tagline := [], title := ['a'], vote_average := 0,
    vote_count := 0 }

/-- `movieA` with every unscored display field changed (id, language, titles,
overview, popularity, countries, date, revenue, runtime, languages, status,
tagline, votes) and the six scored fields kept identical. -/
def movieA2 : Movie :=
  { movieA with
      id := 99, original_language := ['x'], original_title := ['x'],
      overview := ['x'], popularity := 5,
      production_countries := [⟨['U'], ['u']⟩],
      release_date := ['2'], revenue := ['9'], runtime := some 1,
      spoken_languages := [⟨['e'], ['e']⟩], status := ['s'], tagline := ['t'],
      vote_average := 7, vote_count := 3 }

/-- A concrete movie with nonempty tagged collections. -/
def movieC : Movie :=
  { budget := 1, genres := [⟨1, ['g']⟩], homepage := ['h'], id := 2,
    keywords := [⟨2, ['k']⟩], original_language := [], original_title := [],
    overview := [], popularity := 0, production_companies := [⟨3, ['c']⟩],
    production_countries := [], release_date := [], revenue := [],
    runtime := none, spoken_languages := [], status := [], tagline := [],
    title := ['c'], vote_average := 0, vote_count := 0 }

/- ---------------------------------------------------------------------
Helper lemmas about the model.
--------------------------------------------------------------------- -/

theorem F32.div_finite_of_ne {p q : ℚ} (h : q ≠ 0) :
    (F32.finite p).div (F32.finite q) = F32.finite (p / q) := by
  simp [F32.div, h]

theorem wrapSub_self (x : ℕ) : wrapSub x x = 0 := by
  unfold wrapSub
  rw [Nat.add_sub_cancel_left, Nat.mod_self]

theorem wrapSub_eq_sub {a b : ℕ} (h1 : b ≤ a) (h2 : a < 2 ^ 32) :
    wrapSub a b = a - b := by
  unfold wrapSub
  have h3 : a + 2 ^ 32 - b = 2 ^ 32 + (a - b) := by omega
  rw [h3, Nat.add_mod_left, Nat.mod_eq_of_lt (by omega)]

theorem levenshtein_self [DecidableEq α] (l : List α) : levenshtein l l = 0 := by
  induction l with
  | nil => simp [levenshtein]
  | cons x xs ih => simp [levenshtein, ih]

theorem levenshtein_symm [DecidableEq α] : ∀ (a b : List α),
    levenshtein a b = levenshtein b a
  | [], [] => rfl
  | [], y :: ys => by simp [levenshtein]
  | x :: xs, [] => by simp [levenshtein]
  | x :: xs, y :: ys => by
    by_cases h : x = y
    · subst h
      simp [levenshtein, levenshtein_symm xs ys]
    · have h2 : ¬ y = x := fun hh => h hh.symm
      simp only [levenshtein, if_neg h, if_neg h2,
        levenshtein_symm xs (y :: ys), levenshtein_symm (x :: xs) ys,
        levenshtein_symm xs ys]
      have hmin : ∀ (a b c : ℕ), Nat.min a (Nat.min b c) = Nat.min b (Nat.min a c) := by
        intro a b c
        show min a (min b c) = min b (min a c)
        exact min_left_comm a b c
      rw [hmin]
termination_by a b => a.length + b.length
decreasing_by all_goals simp_arith

theorem utf8Len_pos (c : Char) : 0 < utf8Len c := by
  unfold utf8Len
  repeat' split
  all_goals norm_num

theorem byteLen_pos {s : List Char} (h : s ≠ []) : 0 < byteLen s := by
  cases s with
  | nil => exact absurd rfl h
  | cons c cs =>
      have := utf8Len_pos c
      simp [byteLen]
      omega

theorem byteLen_eq_length_of_ascii {s : List Char}
    (h : ∀ c ∈ s, c.toNat < 0x80) : byteLen s = s.length := by
  induction s with
  | nil => rfl
  | cons c cs ih =>
      have hc : utf8Len c = 1 := by
        unfold utf8Len
        rw [if_pos (h c (List.mem_cons_self c cs))]
      simp [byteLen] at ih ⊢
      rw [hc, ih fun d hd => h d (List.mem_cons_of_mem c hd)]
      omega

theorem similarity_number_eval {a b max min : ℕ} (h : wrapSub max min ≠ 0) :
    similarity_number a b max min =
      F32.finite (1 - |(a : ℚ) - (b : ℚ)| / (wrapSub max min : ℚ)) := by
  have hq : ((wrapSub max min : ℕ) : ℚ) ≠ 0 := by exact_mod_cast h
  simp [similarity_number, F32.sub, F32.abs, F32.div_finite_of_ne hq]

theorem similarity_number_self {a max min : ℕ} (h : wrapSub max min ≠ 0) :
    similarity_number a a max min = F32.finite 1 := by
  rw [similarity_number_eval h]
  norm_num

theorem similarity_number_self_nan {a b max min : ℕ} (h : wrapSub max min = 0)
    (hab : a = b) :
    similarity_number a b max min = F32.nan := by
  subst hab
  simp [similarity_number, h, F32.sub, F32.abs, F32.div]

theorem similarity_number_symm (a b max min : ℕ) :
    similarity_number a b max min = similarity_number b a max min := by
  simp [similarity_number, F32.sub, F32.abs, abs_sub_comm]

theorem similarity_string_self (s : List Char) :
    similarity_string s s = F32.finite 1 := by
  by_cases h : s = []
  · simp [similarity_string, h]
  · have hml : 0 < Nat.max (byteLen s) (byteLen s) :=
      Nat.lt_of_lt_of_le (byteLen_pos h) (Nat.le_max_left _ _)
    have hq : ((Nat.max (byteLen s) (byteLen s) : ℕ) : ℚ) ≠ 0 := by
      exact_mod_cast Nat.pos_iff_ne_zero.mp hml
    have hq2 : ((byteLen s : ℕ) : ℚ) ≠ 0 := by
      exact_mod_cast Nat.pos_iff_ne_zero.mp (byteLen_pos h)
    simp [similarity_string, h, levenshtein_self, F32.div_finite_of_ne hq,
      F32.div_finite_of_ne hq2, F32.sub]

theorem similarity_string_symm (a b : List Char) :
    similarity_string a b = similarity_string b a := by
  have hmax : Nat.max (byteLen a) (byteLen b) = Nat.max (byteLen b) (byteLen a) := by
    show max (byteLen a) (byteLen b) = max (byteLen b) (byteLen a)
    exact max_comm _ _
  unfold similarity_string
  rw [levenshtein_symm, hmax]
  by_cases ha : a = [] <;> by_cases hb : b = [] <;> simp [ha, hb]

theorem similarity_string_finite (a b : List Char) :
    ∃ q, similarity_string a b = F32.finite q := by
  unfold similarity_string
  by_cases h : a = [] ∧ b = []
  · simp [h]
  · have hne : a ≠ [] ∨ b ≠ [] := by tauto
    have hml : 0 < Nat.max (byteLen a) (byteLen b) := by
      rcases hne with h1 | h1
      · exact Nat.lt_of_lt_of_le (byteLen_pos h1) (Nat.le_max_left _ _)
      · exact Nat.lt_of_lt_of_le (byteLen_pos h1) (Nat.le_max_right _ _)
    have hq : ((Nat.max (byteLen a) (byteLen b) : ℕ) : ℚ) ≠ 0 := by
      exact_mod_cast Nat.pos_iff_ne_zero.mp hml
    rw [if_neg h, F32.div_finite_of_ne hq]
    exact ⟨_, rfl⟩

theorem similarity_id_self {α : Type} [HasId α] {l : List α} (h : l ≠ []) :
    similarity_id l l = F32.finite 1 := by
  unfold similarity_id
  have hne : (l.map HasId.id).toFinset ≠ ∅ := by
    cases l with
    | nil => exact absurd rfl h
    | cons x xs => simp
  have hcard : (0 : ℚ) < ((l.map HasId.id).toFinset.card : ℚ) := by
    exact_mod_cast Finset.card_pos.mpr (Finset.nonempty_iff_ne_empty.mpr hne)
  rw [Finset.inter_self, Finset.union_self, if_neg hne]
  rw [F32.div_finite_of_ne (ne_of_gt hcard)]
  rw [div_self (ne_of_gt hcard)]

theorem similarity_id_symm {α : Type} [HasId α] (a b : List α) :
    similarity_id a b = similarity_id b a := by
  unfold similarity_id
  rw [Finset.inter_comm, Finset.union_comm]

theorem similarity_id_finite {α : Type} [HasId α] (a b : List α) :
    ∃ q, similarity_id a b = F32.finite q := by
  unfold similarity_id
  by_cases h : (a.map HasId.id).toFinset ∪ (b.map HasId.id).toFinset = ∅
  · simp [h]
  · have hcard : (0 : ℚ) <
        (((a.map HasId.id).toFinset ∪ (b.map HasId.id).toFinset).card : ℚ) := by
      exact_mod_cast Finset.card_pos.mpr (Finset.nonempty_iff_ne_empty.mpr h)
    rw [if_neg h, F32.div_finite_of_ne (ne_of_gt hcard)]
    exact ⟨_, rfl⟩

theorem similarity_id_empty {α : Type} [HasId α] :
    similarity_id ([] : List α) ([] : List α) = F32.finite 0 := by
  simp [similarity_id]

theorem TOTAL_WEIGHT_ne_zero : TOTAL_WEIGHT ≠ 0 := by
  norm_num [TOTAL_WEIGHT, BUDGET_WEIGHT, GENRES_WEIGHT, HOMEPAGE_WEIGHT,
    KEYWORDS_WEIGHT, PRODUCTION_COMPANIES_WEIGHT, TITLE_WEIGHT]

theorem Movie.similarity_symm (a b : Movie) (min_b max_b : ℕ) :
    Movie.similarity a b min_b max_b = Movie.similarity b a min_b max_b := by
  unfold Movie.similarity
  rw [similarity_number_symm, similarity_id_symm a.genres,
    similarity_string_symm a.homepage, similarity_id_symm a.keywords,
    similarity_id_symm a.production_companies, similarity_string_symm a.title]

theorem Movie.similarity_finite {a b : Movie} {min_b max_b : ℕ}
    (h : wrapSub max_b min_b ≠ 0) :
    ∃ q, Movie.similarity a b min_b max_b = F32.finite q := by
  obtain ⟨q2, h2⟩ := similarity_id_finite a.genres b.genres
  obtain ⟨q3, h3⟩ := similarity_string_finite a.homepage b.homepage
  obtain ⟨q4, h4⟩ := similarity_id_finite a.keywords b.keywords
  obtain ⟨q5, h5⟩ := similarity_id_finite a.production_companies b.production_companies
  obtain ⟨q6, h6⟩ := similarity_string_finite a.title b.title
  unfold Movie.similarity
  rw [similarity_number_eval h, h2, h3, h4, h5, h6]
  simp only [F32.mul, F32.add, F32.div_finite_of_ne TOTAL_WEIGHT_ne_zero]
  exact ⟨_, rfl⟩

theorem Movie.similarity_nan {a b : Movie} {min_b max_b : ℕ}
    (h : wrapSub max_b min_b = 0) (hab : a.budget = b.budget) :
    Movie.similarity a b min_b max_b = F32.nan := by
  unfold Movie.similarity
  rw [similarity_number_self_nan h hab]
  simp [F32.mul, F32.add, F32.div]

theorem Movie.similarity_self {r : Movie} {min_b max_b : ℕ}
    (h : wrapSub max_b min_b ≠ 0) (hg : r.genres ≠ []) (hk : r.keywords ≠ [])
    (hc : r.production_companies ≠ []) :
    Movie.similarity r r min_b max_b = F32.finite 1 := by
  unfold Movie.similarity
  rw [similarity_number_self h, similarity_id_self hg, similarity_id_self hk,
    similarity_id_self hc, similarity_string_self, similarity_string_self]
  simp only [F32.mul, F32.add, F32.div_finite_of_ne TOTAL_WEIGHT_ne_zero]
  norm_num [TOTAL_WEIGHT, BUDGET_WEIGHT, GENRES_WEIGHT, HOMEPAGE_WEIGHT,
    KEYWORDS_WEIGHT, PRODUCTION_COMPANIES_WEIGHT, TITLE_WEIGHT]

theorem foldl_min_le_init : ∀ (l : List ℕ) (a : ℕ), List.foldl min a l ≤ a := by
  intro l
  induction l with
  | nil => intro a; simp
  | cons b bs ih =>
      intro a
      exact le_trans (ih (min a b)) (min_le_left a b)

theorem foldl_min_le_mem : ∀ (l : List ℕ) (a x : ℕ), x ∈ l → List.foldl min a l ≤ x := by
  intro l
  induction l with
  | nil => intro a x hx; simp at hx
  | cons b bs ih =>
      intro a x hx
      rcases List.mem_cons.mp hx with h | h
      · subst h
        exact le_trans (foldl_min_le_init bs (min a x)) (min_le_right a x)
      · exact ih (min a b) x h

theorem init_le_foldl_max : ∀ (l : List ℕ) (a : ℕ), a ≤ List.foldl max a l := by
  intro l
  induction l with
  | nil => intro a; simp
  | cons b bs ih =>
      intro a
      exact le_trans (le_max_left a b) (ih (max a b))

theorem mem_le_foldl_max : ∀ (l : List ℕ) (a x : ℕ), x ∈ l → x ≤ List.foldl max a l := by
  intro l
  induction l with
  | nil => intro a x hx; simp at hx
  | cons b bs ih =>
      intro a x hx
      rcases List.mem_cons.mp hx with h | h
      · subst h
        exact le_trans (le_max_right a x) (init_le_foldl_max bs (max a x))
      · exact ih (max a b) x h

theorem foldl_max_mem_or : ∀ (l : List ℕ) (a : ℕ),
    List.foldl max a l = a ∨ List.foldl max a l ∈ l := by
  intro l
  induction l with
  | nil => intro a; exact Or.inl rfl
  | cons b bs ih =>
      intro a
      rcases ih (max a b) with h | h
      · rcases max_choice a b with hm | hm
        · exact Or.inl (by rw [show List.foldl max a (b :: bs) = List.foldl max (max a b) bs from rfl, h, hm])
        · exact Or.inr (by rw [show List.foldl max a (b :: bs) = List.foldl max (max a b) bs from rfl, h, hm]; exact List.mem_cons_self b bs)
      · exact Or.inr (List.mem_cons_of_mem b h)

theorem min?_getD_le {l : List ℕ} {x : ℕ} (h : x ∈ l) : l.min?.getD 0 ≤ x := by
  cases l with
  | nil => simp at h
  | cons a as =>
      rcases List.mem_cons.mp h with h1 | h1
      · subst h1
        exact foldl_min_le_init as x
      · exact foldl_min_le_mem as a x h1

theorem le_max?_getD {l : List ℕ} {x : ℕ} (h : x ∈ l) : x ≤ l.max?.getD 0 := by
  cases l with
  | nil => simp at h
  | cons a as =>
      rcases List.mem_cons.mp h with h1 | h1
      · subst h1
        exact init_le_foldl_max as x
      · exact mem_le_foldl_max as a x h1

theorem max?_getD_mem {l : List ℕ} (h : l ≠ []) : l.max?.getD 0 ∈ l := by
  cases l with
  | nil => exact absurd rfl h
  | cons a as =>
      show List.foldl max a as ∈ a :: as
      rcases foldl_max_mem_or as a with h1 | h1
      · rw [h1]; exact List.mem_cons_self a as
      · exact List.mem_cons_of_mem a h1

theorem minBudget_le_budget {movies : List Movie} {m : Movie} (h : m ∈ movies) :
    minBudget movies ≤ m.budget :=
  min?_getD_le (List.mem_map_of_mem Movie.budget h)

theorem budget_le_maxBudget {movies : List Movie} {m : Movie} (h : m ∈ movies) :
    m.budget ≤ maxBudget movies :=
  le_max?_getD (List.mem_map_of_mem Movie.budget h)

theorem budget_eq_of_bounds_eq {movies : List Movie} {m : Movie}
    (hmm : minBudget movies = maxBudget movies) (h : m ∈ movies) :
    m.budget = minBudget movies :=
  le_antisymm (hmm ▸ budget_le_maxBudget h) (minBudget_le_budget h)

theorem maxBudget_lt_of_budgets_lt {movies : List Movie} (h : movies ≠ [])
    (hb : ∀ m ∈ movies, m.budget < 2 ^ 32) : maxBudget movies < 2 ^ 32 := by
  have hmem : maxBudget movies ∈ movies.map Movie.budget := by
    apply max?_getD_mem
    simpa using h
  obtain ⟨m, hm, he⟩ := List.mem_map.mp hmem
  exact he ▸ hb m hm

theorem sortLe_fin_iff {α : Type} {i j : α} {p q : ℚ} :
    sortLe (i, F32.finite p) (j, F32.finite q) = true ↔ q ≤ p := by
  rcases lt_trichotomy q p with h | h | h
  · simp [sortLe, rustCmp, qCompare, h, le_of_lt h]
  · simp [sortLe, rustCmp, qCompare, h]
  · simp [sortLe, rustCmp, qCompare, lt_asymm h, ne_of_gt h, not_le.mpr h]

theorem sortLe_of_snd_eq {α : Type} {x y : α × F32} (h : x.2 = y.2) :
    sortLe x y = true := by
  rcases x with ⟨i, s⟩
  rcases y with ⟨j, t⟩
  simp only at h
  subst h
  cases s <;> simp [sortLe, rustCmp, qCompare]

theorem sortLe_of_nan {α : Type} {x y : α × F32}
    (h : x.2 = F32.nan ∨ y.2 = F32.nan) : sortLe x y = true := by
  rcases x with ⟨i, s⟩
  rcases y with ⟨j, t⟩
  simp only at h
  rcases h with h | h <;> subst h <;> cases_type* F32 <;>
    simp [sortLe, rustCmp]

theorem sortLe_total {α : Type} (x y : α × F32) :
    sortLe x y = true ∨ sortLe y x = true := by
  rcases x with ⟨i, s⟩
  rcases y with ⟨j, t⟩
  cases s <;> cases t <;>
    first
      | (rename_i p q
         rcases le_total q p with h | h
         · exact Or.inl (sortLe_fin_iff.mpr h)
         · exact Or.inr (sortLe_fin_iff.mpr h))
      | simp [sortLe, rustCmp]

theorem sortLe_trans_fin {α : Type} {x y z : α × F32} {p q r : ℚ}
    (hx : x.2 = F32.finite p) (hy : y.2 = F32.finite q)
    (hz : z.2 = F32.finite r) (h1 : sortLe x y = true)
    (h2 : sortLe y z = true) : sortLe x z = true := by
  rcases x with ⟨i, s⟩
  rcases y with ⟨j, t⟩
  rcases z with ⟨k, u⟩
  simp only at hx hy hz
  subst hx; subst hy; subst hz
  rw [sortLe_fin_iff] at h1 h2 ⊢
  exact le_trans h2 h1

theorem mem_insertSorted {α : Type} {le : α → α → Bool} {x z : α} :
    ∀ {l : List α}, z ∈ insertSorted le x l ↔ z = x ∨ z ∈ l := by
  intro l
  induction l with
  | nil => simp [insertSorted]
  | cons y ys ih =>
      simp only [insertSorted]
      split
      · simp only [List.mem_cons]
      · simp only [List.mem_cons, ih]
        tauto

theorem mem_stableSort {α : Type} {le : α → α → Bool} {z : α} :
    ∀ {l : List α}, z ∈ stableSort le l ↔ z ∈ l := by
  intro l
  induction l with
  | nil => simp [stableSort]
  | cons x xs ih => simp [stableSort, mem_insertSorted, ih]

theorem pairwise_insertSorted {α : Type} {le : α → α → Bool} {x : α} :
    ∀ {l : List α},
    (∀ b ∈ l, le x b = true ∨ le b x = true) →
    (∀ a b c, (a = x ∨ a ∈ l) → (b = x ∨ b ∈ l) → (c = x ∨ c ∈ l) →
      le a b = true → le b c = true → le a c = true) →
    l.Pairwise (le · · = true) →
    (insertSorted le x l).Pairwise (le · · = true) := by
  intro l
  induction l with
  | nil =>
      intro _ _ _
      simp [insertSorted]
  | cons y ys ih =>
      intro htot htrans hl
      rw [List.pairwise_cons] at hl
      obtain ⟨hy, hys⟩ := hl
      simp only [insertSorted]
      split
      case isTrue hxy =>
        refine List.Pairwise.cons ?_ (List.Pairwise.cons hy hys)
        intro z hz
        rcases List.mem_cons.mp hz with h | h
        · subst h; exact hxy
        · exact htrans x y z (Or.inl rfl) (Or.inr (List.mem_cons_self y ys))
            (Or.inr (List.mem_cons_of_mem y h)) hxy (hy z h)
      case isFalse hxy =>
        have hyx : le y x = true := by
          rcases htot y (List.mem_cons_self y ys) with h | h
          · exact absurd h (by simpa using hxy)
          · exact h
        refine List.Pairwise.cons ?_
          (ih (fun b hb => htot b (List.mem_cons_of_mem y hb))
            (fun a b c ha hb hc => htrans a b c
              (ha.imp id (List.mem_cons_of_mem y))
              (hb.imp id (List.mem_cons_of_mem y))
              (hc.imp id (List.mem_cons_of_mem y))) hys)
        intro z hz
        rcases mem_insertSorted.mp hz with h | h
        · subst h; exact hyx
        · exact hy z h

theorem pairwise_stableSort {α : Type} {le : α → α → Bool} :
    ∀ {l : List α},
    (∀ a ∈ l, ∀ b ∈ l, le a b = true ∨ le b a = true) →
    (∀ a ∈ l, ∀ b ∈ l, ∀ c ∈ l, le a b = true → le b c = true → le a c = true) →
    (stableSort le l).Pairwise (le · · = true) := by
  intro l
  induction l with
  | nil =>
      intro _ _
      simp [stableSort]
  | cons x xs ih =>
      intro htot htrans
      simp only [stableSort]
      apply pairwise_insertSorted
      · intro b hb
        exact htot x (List.mem_cons_self x xs) b
          (List.mem_cons_of_mem x (mem_stableSort.mp hb))
      · intro a b c ha hb hc h1 h2
        have Ha : a ∈ x :: xs := by
          rcases ha with h | h
          · rw [h]; exact List.mem_cons_self x xs
          · exact List.mem_cons_of_mem x (mem_stableSort.mp h)
        have Hb : b ∈ x :: xs := by
          rcases hb with h | h
          · rw [h]; exact List.mem_cons_self x xs
          · exact List.mem_cons_of_mem x (mem_stableSort.mp h)
        have Hc : c ∈ x :: xs := by
          rcases hc with h | h
          · rw [h]; exact List.mem_cons_self x xs
          · exact List.mem_cons_of_mem x (mem_stableSort.mp h)
        exact htrans a Ha b Hb c Hc h1 h2
      · exact ih
          (fun a ha b hb => htot a (List.mem_cons_of_mem x ha) b
            (List.mem_cons_of_mem x hb))
          (fun a ha b hb c hc => htrans a (List.mem_cons_of_mem x ha) b
            (List.mem_cons_of_mem x hb) c (List.mem_cons_of_mem x hc))

theorem pairwise_snd_insertSorted {x : ℕ × F32} :
    ∀ {l : List (ℕ × F32)},
    (∀ y ∈ l, x.1 < y.1) →
    l.Pairwise (fun a b => a.2 = b.2 → a.1 < b.1) →
    (insertSorted sortLe x l).Pairwise (fun a b => a.2 = b.2 → a.1 < b.1) := by
  intro l
  induction l with
  | nil =>
      intro _ _
      simp [insertSorted]
  | cons y ys ih =>
      intro hx hl
      rw [List.pairwise_cons] at hl
      obtain ⟨hy, hys⟩ := hl
      simp only [insertSorted]
      split
      case isTrue h =>
        refine List.Pairwise.cons ?_ (List.Pairwise.cons hy hys)
        intro z hz _
        rcases List.mem_cons.mp hz with hh | hh
        · subst hh; exact hx z (List.mem_cons_self z ys)
        · exact hx z (List.mem_cons_of_mem y hh)
      case isFalse h =>
        refine List.Pairwise.cons ?_
          (ih (fun z hz => hx z (List.mem_cons_of_mem y hz)) hys)
        intro z hz heq
        rcases mem_insertSorted.mp hz with hh | hh
        · subst hh
          exact absurd (sortLe_of_snd_eq heq.symm) (by simpa using h)
        · exact hy z hh heq

theorem pairwise_snd_stableSort :
    ∀ {l : List (ℕ × F32)},
    l.Pairwise (fun a b => a.1 < b.1) →
    (stableSort sortLe l).Pairwise (fun a b => a.2 = b.2 → a.1 < b.1) := by
  intro l
  induction l with
  | nil =>
      intro _
      simp [stableSort]
  | cons x xs ih =>
      intro hl
      rw [List.pairwise_cons] at hl
      obtain ⟨hx, hxs⟩ := hl
      exact pairwise_snd_insertSorted
        (fun y hy => hx y (mem_stableSort.mp hy)) (ih hxs)

theorem mem_enumFrom_spec {α : Type} :
    ∀ (l : List α) (n : ℕ) (p : ℕ × α), p ∈ List.enumFrom n l →
      n ≤ p.1 ∧ l.get? (p.1 - n) = some p.2 := by
  intro l
  induction l with
  | nil =>
      intro n p h
      simp [List.enumFrom] at h
  | cons x xs ih =>
      intro n p h
      simp only [List.enumFrom, List.mem_cons] at h
      rcases h with h | h
      · subst h
        simp
      · obtain ⟨h1, h2⟩ := ih (n + 1) p h
        refine ⟨by omega, ?_⟩
        have hs : p.1 - n = (p.1 - (n + 1)) + 1 := by omega
        rw [hs]
        simpa using h2

theorem enumFrom_pairwise {α : Type} :
    ∀ (n : ℕ) (l : List α),
      (List.enumFrom n l).Pairwise (fun p q => p.1 < q.1) := by
  intro n l
  induction l generalizing n with
  | nil => simp [List.enumFrom]
  | cons x xs ih =>
      simp only [List.enumFrom]
      refine List.Pairwise.cons ?_ (ih (n + 1))
      intro q hq
      have h1 := (mem_enumFrom_spec xs (n + 1) q hq).1
      show n < q.1
      omega

theorem mem_topKView :
    ∀ {k sel : ℕ} {l : List (ℕ × F32)} {e : ℕ × F32},
      e ∈ topKView k sel l → e ∈ l ∧ e.1 ≠ sel := by
  intro k sel l
  induction l generalizing k with
  | nil =>
      intro e h
      simp [topKView] at h
  | cons a rest ih =>
      intro e h
      simp only [topKView] at h
      split at h
      · simp at h
      · split at h
        case isTrue hsel =>
          obtain ⟨h1, h2⟩ := ih h
          exact ⟨List.mem_cons_of_mem a h1, h2⟩
        case isFalse hsel =>
          rcases List.mem_cons.mp h with hh | hh
          · subst hh
            exact ⟨List.mem_cons_self e rest, hsel⟩
          · obtain ⟨h1, h2⟩ := ih hh
            exact ⟨List.mem_cons_of_mem a h1, h2⟩

theorem mem_topKMain :
    ∀ {k refId : ℕ} {l : List ((ℕ × Movie) × F32)} {e : (ℕ × Movie) × F32},
      e ∈ topKMain k refId l → e ∈ l ∧ e.1.2.id ≠ refId := by
  intro k refId l
  induction l generalizing k with
  | nil =>
      intro e h
      simp [topKMain] at h
  | cons a rest ih =>
      intro e h
      simp only [topKMain] at h
      split at h
      · simp at h
      · split at h
        case isTrue hsel =>
          obtain ⟨h1, h2⟩ := ih h
          exact ⟨List.mem_cons_of_mem a h1, h2⟩
        case isFalse hsel =>
          rcases List.mem_cons.mp h with hh | hh
          · subst hh
            exact ⟨List.mem_cons_self e rest, hsel⟩
          · obtain ⟨h1, h2⟩ := ih hh
            exact ⟨List.mem_cons_of_mem a h1, h2⟩

theorem scoreEntries_pairwise_fst (movies : List Movie) (ref : Movie) :
    (scoreEntries movies ref).Pairwise (fun a b => a.1 < b.1) := by
  unfold scoreEntries
  exact List.Pairwise.map _ (fun a b h => h) (enumFrom_pairwise 0 movies)

theorem scoreEntries_mem_snd {movies : List Movie} {ref : Movie} {e : ℕ × F32}
    (h : e ∈ scoreEntries movies ref) :
    ∃ m ∈ movies,
      e.2 = Movie.similarity m ref (minBudget movies) (maxBudget movies) := by
  unfold scoreEntries at h
  obtain ⟨p, hp, he⟩ := List.mem_map.mp h
  have h2 := (mem_enumFrom_spec movies 0 p hp).2
  have hm : p.2 ∈ movies := List.get?_mem (by simpa using h2)
  exact ⟨p.2, hm, by rw [← he]⟩

theorem scoreEntriesMain_spec {movies : List Movie} {ref : Movie}
    {e : (ℕ × Movie) × F32} (h : e ∈ scoreEntriesMain movies ref) :
    movies.get? e.1.1 = some e.1.2 := by
  unfold scoreEntriesMain at h
  obtain ⟨p, hp, he⟩ := List.mem_map.mp h
  have h2 := (mem_enumFrom_spec movies 0 p hp).2
  rw [← he]
  simpa using h2

theorem scoreEntries_all_nan {movies : List Movie} {ref : Movie}
    (href : ref ∈ movies) (heq : minBudget movies = maxBudget movies) :
    ∀ e ∈ scoreEntries movies ref, e.2 = F32.nan := by
  intro e he
  obtain ⟨m, hm, hsnd⟩ := scoreEntries_mem_snd he
  rw [hsnd]
  apply Movie.similarity_nan
  · rw [← heq]
    exact wrapSub_self _
  · rw [budget_eq_of_bounds_eq heq hm, budget_eq_of_bounds_eq heq href]

theorem scoreEntries_all_finite {movies : List Movie} {ref : Movie}
    (hb : ∀ m ∈ movies, m.budget < 2 ^ 32)
    (hne : minBudget movies ≠ maxBudget movies) :
    ∀ e ∈ scoreEntries movies ref, ∃ q, e.2 = F32.finite q := by
  have hnonnil : movies ≠ [] := by
    intro hnil
    subst hnil
    exact hne rfl
  have hle : minBudget movies ≤ maxBudget movies := by
    obtain ⟨m, hm⟩ := List.exists_mem_of_ne_nil movies hnonnil
    exact le_trans (minBudget_le_budget hm) (budget_le_maxBudget hm)
  have hlt : minBudget movies < maxBudget movies := lt_of_le_of_ne hle hne
  have hmax : maxBudget movies < 2 ^ 32 := maxBudget_lt_of_budgets_lt hnonnil hb
  have hws : wrapSub (maxBudget movies) (minBudget movies) ≠ 0 := by
    rw [wrapSub_eq_sub (le_of_lt hlt) hmax]
    omega
  intro e he
  obtain ⟨m, hm, hsnd⟩ := scoreEntries_mem_snd he
  rw [hsnd]
  exact Movie.similarity_finite hws

/- ---------------------------------------------------------------------
Claim theorems.
--------------------------------------------------------------------- -/

/-- C1: the claim says `similarity_number(a, b, max, min)` returns `1.0` and
never NaN or an infinity when `max == min`.  The code has no degenerate-range
guard: at `a = 5, b = 5, max = min = 7` it computes `0.0 / 0.0 = NaN`, and at
`a = 5, b = 6, max = min = 7` it computes `1.0 - 1.0 / 0.0 = -Inf`.  This
theorem evaluates the embedded code at those failing inputs. -/
theorem c1_degenerate_bounds_poison :
    similarity_number 5 5 7 7 = F32.nan ∧
      similarity_number 5 6 7 7 = F32.neginf := by
  constructor
  · exact similarity_number_self_nan (wrapSub_self 7) rfl
  · have h1 : |(5 : ℚ) - 6| = 1 := by norm_num
    norm_num [similarity_number, wrapSub_self, F32.sub, F32.abs, F32.div, h1]

/-- C2 counterexample: for the record `movieA` (empty genres, keywords and
production companies) and valid bounds `min = 0 < 1 = max`, self-similarity is
`3/7`, not `1.0`: the empty-collection Jaccard terms contribute `0`, so only
the budget, homepage and title weights (`0.3 + 0.2 + 2.5 = 3`) survive out of
the total weight `7`. -/
theorem c2_self_similarity_counterexample :
    Movie.similarity movieA movieA 0 1 = F32.finite (3 / 7) ∧
      F32.finite ((3 : ℚ) / 7) ≠ F32.finite 1 := by
  constructor
  · have hb : similarity_number 0 0 1 0 = F32.finite 1 :=
      similarity_number_self (by decide)
    have hs : similarity_string [] [] = F32.finite 1 := by
      simp [similarity_string]
    have ht : similarity_string ['a'] ['a'] = F32.finite 1 :=
      similarity_string_self ['a']
    have hg : similarity_id ([] : List Genre) [] = F32.finite 0 :=
      similarity_id_empty
    have hk : similarity_id ([] : List Keyword) [] = F32.finite 0 :=
      similarity_id_empty
    have hc : similarity_id ([] : List Company) [] = F32.finite 0 :=
      similarity_id_empty
    norm_num [Movie.similarity, movieA, hb, hs, ht, hg, hk, hc, F32.mul,
      F32.add, F32.div, BUDGET_WEIGHT, GENRES_WEIGHT, HOMEPAGE_WEIGHT,
      KEYWORDS_WEIGHT, PRODUCTION_COMPANIES_WEIGHT, TITLE_WEIGHT,
      TOTAL_WEIGHT]
  · simp only [ne_eq, F32.finite.injEq]
    norm_num

/-- C2 amended: self-similarity is exactly `1.0` provided the catalogue
bounds are non-degenerate (`min < max`, within the `u32` range) and the
record's genres, keywords and production companies are all nonempty.  (With
an empty collection the Jaccard term is `0`, and with `min = max` the budget
term is NaN, so both restrictions are forced by the counterexample.) -/
theorem c2_self_similarity_amended (r : Movie) (min_b max_b : ℕ)
    (h1 : min_b < max_b) (h2 : max_b < 2 ^ 32) (hg : r.genres ≠ [])
    (hk : r.keywords ≠ []) (hc : r.production_companies ≠ []) :
    Movie.similarity r r min_b max_b = F32.finite 1 := by
  have hws : wrapSub max_b min_b ≠ 0 := by
    rw [wrapSub_eq_sub (le_of_lt h1) h2]
    omega
  exact Movie.similarity_self hws hg hk hc

/-- C2 witness: the amended theorem applied to the concrete record `movieC`
with bounds `0 < 1`. -/
theorem c2_self_similarity_witness :
    Movie.similarity movieC movieC 0 1 = F32.finite 1 :=
  c2_self_similarity_amended movieC 0 1 (by decide) (by decide) (by decide)
    (by decide) (by decide)

/-- C3 counterexample: the claim says the result is clamped to `[0,1]` even
when `a` falls outside `[min, max]`.  There is no clamp in the code: at
`a = 10, b = 0, max = 5, min = 0` the result is `1 - 10/5 = -1`, which is
below `0`. -/
theorem c3_clamping_counterexample :
    similarity_number 10 0 5 0 = F32.finite (-1) ∧ ¬((0 : ℚ) ≤ -1) := by
  constructor
  · rw [similarity_number_eval (by decide)]
    norm_num [show wrapSub 5 0 = 5 from by decide]
  · norm_num

/-- C3 amended: for `min < max` with `max` below `2^24` the result is the
finite value `1 - |a - b| / (max - min)` with no clamping; it lies in `[0,1]`
provided `a` and `b` both lie inside `[min, max]` (out-of-range inputs can
drive it below `0`).  The `2^24` restriction is forced by cast rounding: the
model's `u32 → f32` casts are exact, which is bit-faithful only below `2^24`
(every such integer is representable, so the casts and the integer
subtraction are exact, and the `[0,1]` bound survives the rounded division
and final subtraction because round-to-nearest is monotone and `0` and `1`
are representable).  Above `2^24` the real casts round — e.g. at
`min = 2147483775`, `max = 2147483777`, `a = max`, `b = min` the two casts
land 256 apart and the program returns `-127.0` — so the in-range bound is
not claimed there. -/
theorem c3_range_amended (a b max min : ℕ) (h1 : min < max)
    (h2 : max < 2 ^ 24) (ha1 : min ≤ a) (ha2 : a ≤ max) (hb1 : min ≤ b)
    (hb2 : b ≤ max) :
    similarity_number a b max min =
      F32.finite (1 - |(a : ℚ) - (b : ℚ)| / ((wrapSub max min : ℕ) : ℚ)) ∧
    0 ≤ 1 - |(a : ℚ) - (b : ℚ)| / ((wrapSub max min : ℕ) : ℚ) ∧
    1 - |(a : ℚ) - (b : ℚ)| / ((wrapSub max min : ℕ) : ℚ) ≤ 1 := by
  have h32 : max < 2 ^ 32 := lt_trans h2 (by norm_num)
  have hws : wrapSub max min = max - min := wrapSub_eq_sub (le_of_lt h1) h32
  have hne : wrapSub max min ≠ 0 := by omega
  have hd : (0 : ℚ) < ((wrapSub max min : ℕ) : ℚ) := by
    have : 0 < wrapSub max min := Nat.pos_of_ne_zero hne
    exact_mod_cast this
  have habs : |(a : ℚ) - (b : ℚ)| ≤ ((wrapSub max min : ℕ) : ℚ) := by
    rw [hws]
    rw [abs_le]
    have hcast : ((max - min : ℕ) : ℚ) = (max : ℚ) - (min : ℚ) :=
      Nat.cast_sub (le_of_lt h1)
    rw [hcast]
    have c1 : (a : ℚ) ≤ (max : ℚ) := by exact_mod_cast ha2
    have c2 : (min : ℚ) ≤ (a : ℚ) := by exact_mod_cast ha1
    have c3 : (b : ℚ) ≤ (max : ℚ) := by exact_mod_cast hb2
    have c4 : (min : ℚ) ≤ (b : ℚ) := by exact_mod_cast hb1
    constructor <;> linarith
  refine ⟨similarity_number_eval hne, ?_, ?_⟩
  · have : |(a : ℚ) - (b : ℚ)| / ((wrapSub max min : ℕ) : ℚ) ≤ 1 :=
      (div_le_one hd).mpr habs
    linarith
  · have : 0 ≤ |(a : ℚ) - (b : ℚ)| / ((wrapSub max min : ℕ) : ℚ) :=
      div_nonneg (abs_nonneg _) (le_of_lt hd)
    linarith

/-- C3 witness: the amended theorem applied at `a = 3, b = 4, max = 9,
min = 2`. -/
theorem c3_range_witness :
    similarity_number 3 4 9 2 =
      F32.finite (1 - |(3 : ℚ) - (4 : ℚ)| / ((wrapSub 9 2 : ℕ) : ℚ)) ∧
    0 ≤ 1 - |(3 : ℚ) - (4 : ℚ)| / ((wrapSub 9 2 : ℕ) : ℚ) ∧
    1 - |(3 : ℚ) - (4 : ℚ)| / ((wrapSub 9 2 : ℕ) : ℚ) ≤ 1 :=
  c3_range_amended 3 4 9 2 (by decide) (by decide) (by decide) (by decide)
    (by decide) (by decide)

/-- C4: for every catalogue (with `u32` budgets) and valid reference index,
the ranking produced before top-K truncation is pairwise ordered by the
sort comparator (score descending, incomparable scores tied), and any two
entries with equal scores appear in ascending original catalogue index order
(the sort is stable and the input is enumerated in catalogue order). -/
theorem c4_ranking_sorted_stable (movies : List Movie) (refIdx : ℕ)
    (ref : Movie) (h : movies.get? refIdx = some ref)
    (hb : ∀ m ∈ movies, m.budget < 2 ^ 32) :
    (calculate_similarities movies ref).Pairwise
      (fun a b => sortLe a b = true ∧ (a.2 = b.2 → a.1 < b.1)) := by
  have href : ref ∈ movies := List.get?_mem h
  have hstab : (calculate_similarities movies ref).Pairwise
      (fun a b => a.2 = b.2 → a.1 < b.1) :=
    pairwise_snd_stableSort (scoreEntries_pairwise_fst movies ref)
  have hsort : (calculate_similarities movies ref).Pairwise
      (fun a b => sortLe a b = true) := by
    unfold calculate_similarities
    by_cases heq : minBudget movies = maxBudget movies
    · apply pairwise_stableSort
      · intro a _ b _
        exact sortLe_total a b
      · intro a _ b _ c hc _ _
        exact sortLe_of_nan (Or.inr (scoreEntries_all_nan href heq c hc))
    · apply pairwise_stableSort
      · intro a _ b _
        exact sortLe_total a b
      · intro a ha b hb2 c hc h1 h2
        obtain ⟨p, hp⟩ := scoreEntries_all_finite hb heq a ha
        obtain ⟨q, hq⟩ := scoreEntries_all_finite hb heq b hb2
        obtain ⟨r, hr⟩ := scoreEntries_all_finite hb heq c hc
        exact sortLe_trans_fin hp hq hr h1 h2
  exact hsort.and hstab

/-- C4 witness: the theorem applied to the concrete two-movie catalogue
`[movieA, movieC]` with reference index `0`. -/
theorem c4_ranking_witness :
    ([movieA, movieC].get? 0 = some movieA) ∧
      (calculate_similarities [movieA, movieC] movieA).Pairwise
        (fun a b => sortLe a b = true ∧ (a.2 = b.2 → a.1 < b.1)) :=
  ⟨rfl, c4_ranking_sorted_stable [movieA, movieC] 0 movieA rfl (by decide)⟩

/-- C5: the top-K emission never yields the reference record.  The GUI loop
skips exactly the selected catalogue index; the CLI loop skips by movie id,
and since the entry at the CLI's reference index 0 carries the reference
movie itself, no emitted entry has catalogue index 0. -/
theorem c5_topk_excludes_reference (movies : List Movie) (refIdx : ℕ)
    (ref : Movie) (k : ℕ) (h : movies.get? refIdx = some ref) :
    (∀ e ∈ topKView k refIdx (calculate_similarities movies ref), e.1 ≠ refIdx)
    ∧ (∀ e ∈ topKMain k ref.id (rankMain movies ref), e.1.2.id ≠ ref.id)
    ∧ (refIdx = 0 →
        ∀ e ∈ topKMain k ref.id (rankMain movies ref), e.1.1 ≠ 0) := by
  refine ⟨fun e he => (mem_topKView he).2, fun e he => (mem_topKMain he).2, ?_⟩
  intro h0 e he hidx
  obtain ⟨hmem, hid⟩ := mem_topKMain he
  have hrank : e ∈ scoreEntriesMain movies ref := by
    unfold rankMain at hmem
    exact mem_stableSort.mp hmem
  have hget := scoreEntriesMain_spec hrank
  rw [hidx] at hget
  rw [h0] at h
  have hre : ref = e.1.2 := Option.some.inj (h.symm.trans hget)
  exact hid (congrArg Movie.id hre.symm)

/-- C5 witness: the theorem applied to the concrete catalogue
`[movieA, movieC]` with reference index `0` and `k = 1`. -/
theorem c5_topk_witness :
    (∀ e ∈ topKView 1 0 (calculate_similarities [movieA, movieC] movieA),
      e.1 ≠ 0)
    ∧ (∀ e ∈ topKMain 1 movieA.id (rankMain [movieA, movieC] movieA),
        e.1.2.id ≠ movieA.id)
    ∧ ((0 : ℕ) = 0 →
        ∀ e ∈ topKMain 1 movieA.id (rankMain [movieA, movieC] movieA),
          e.1.1 ≠ 0) :=
  c5_topk_excludes_reference [movieA, movieC] 0 movieA 1 rfl

/-- C6: the aggregate similarity is symmetric in its two Record arguments for
every pair of bounds: every primitive is symmetric as a computed value
(numeric absolute difference, Levenshtein distance, Jaccard index), so the
two computations produce identical `f32` values (NaN included, compared as a
value, i.e. bitwise). -/
theorem c6_similarity_symmetric (a b : Movie) (min_b max_b : ℕ) :
    Movie.similarity a b min_b max_b = Movie.similarity b a min_b max_b :=
  Movie.similarity_symm a b min_b max_b

/-- C7 counterexample: the claim says distance and lengths are measured in
one consistent unit.  At `a = "é"` (one char, two UTF-8 bytes) and
`b = "a"`, the code returns `1 - 1/2 = 1/2` (char-unit distance `1` divided
by byte-unit length `2`), while the char-consistent and byte-consistent
formulas both give `0`. -/
theorem c7_string_unit_counterexample :
    similarity_string ['é'] ['a'] = F32.finite (1 / 2)
    ∧ 1 - (levenshtein ['é'] ['a'] : ℚ) /
        ((Nat.max (['é'] : List Char).length (['a'] : List Char).length : ℕ) : ℚ) = 0
    ∧ 1 - (levenshtein (strBytes ['é']) (strBytes ['a']) : ℚ) /
        ((Nat.max (strBytes ['é']).length (strBytes ['a']).length : ℕ) : ℚ) = 0
    ∧ (1 / 2 : ℚ) ≠ 0 := by
  have hch : ¬('é' = 'a') := by decide
  have he1 : ('é' : Char).toNat = 233 := by decide
  have he2 : ('a' : Char).toNat = 97 := by decide
  have hlev : levenshtein ['é'] ['a'] = 1 := by
    norm_num [levenshtein, hch]
  have hbl1 : byteLen ['é'] = 2 := by norm_num [byteLen, utf8Len, he1]
  have hbl2 : byteLen ['a'] = 1 := by norm_num [byteLen, utf8Len, he2]
  have hsb1 : strBytes ['é'] = [195, 169] := by
    norm_num [strBytes, utf8Bytes, he1]
  have hsb2 : strBytes ['a'] = [97] := by
    norm_num [strBytes, utf8Bytes, he2]
  refine ⟨?_, ?_, ?_, by norm_num⟩
  · norm_num [similarity_string, hlev, hbl1, hbl2, F32.div, F32.sub]
  · rw [hlev]
    norm_num
  · rw [hsb1, hsb2]
    have hlevb : levenshtein [195, 169] [97] = 2 := by
      norm_num [levenshtein]
    rw [hlevb]
    norm_num

/-- C7 amended: both strings empty gives `1.0`; otherwise the code returns
`1 - d / max(len(a), len(b))` where the Levenshtein distance `d` is measured
in Unicode scalar values but the lengths are UTF-8 byte counts — a unit mix.
For ASCII strings (every scalar value below `0x80`) the two units coincide
and the result equals `1 - d / max(|a|, |b|)` over character counts. -/
theorem c7_string_amended :
    similarity_string [] [] = F32.finite 1
    ∧ ∀ (a b : List Char), (∀ c ∈ a, c.toNat < 0x80) →
        (∀ c ∈ b, c.toNat < 0x80) → ¬(a = [] ∧ b = []) →
        similarity_string a b =
          F32.finite (1 - (levenshtein a b : ℚ) /
            ((Nat.max a.length b.length : ℕ) : ℚ)) := by
  constructor
  · simp [similarity_string]
  · intro a b ha hba hne
    have hml : 0 < Nat.max a.length b.length := by
      rcases not_and_or.mp hne with h1 | h1
      · have : 0 < a.length := List.length_pos.mpr h1
        exact Nat.lt_of_lt_of_le this (Nat.le_max_left _ _)
      · have : 0 < b.length := List.length_pos.mpr h1
        exact Nat.lt_of_lt_of_le this (Nat.le_max_right _ _)
    have hq : ((Nat.max a.length b.length : ℕ) : ℚ) ≠ 0 := by
      exact_mod_cast Nat.pos_iff_ne_zero.mp hml
    unfold similarity_string
    rw [if_neg hne, byteLen_eq_length_of_ascii ha,
      byteLen_eq_length_of_ascii hba, F32.div_finite_of_ne hq]
    simp [F32.sub]

/-- C7 witness: the amended theorem applied to the ASCII strings `"ab"` and
`"a"`. -/
theorem c7_string_witness :
    similarity_string ['a', 'b'] ['a'] =
      F32.finite (1 - (levenshtein ['a', 'b'] ['a'] : ℚ) /
        ((Nat.max (['a', 'b'] : List Char).length
          (['a'] : List Char).length : ℕ) : ℚ)) :=
  c7_string_amended.2 ['a', 'b'] ['a'] (by decide) (by decide) (by decide)

/-- C8: `similarity_id` equals the Jaccard index of the two collections'
distinct-identifier sets (stated against the spec-side `jaccardSpec`),
duplicate identifiers inside one collection collapse, and two empty
collections give `0.0`, not `1.0`. -/
theorem c8_similarity_id_jaccard :
    (∀ (α : Type) (inst : HasId α) (a b : List α),
        @similarity_id α inst a b =
          F32.finite (jaccardSpec (@idSet α inst a) (@idSet α inst b)))
    ∧ (∀ (α : Type) (inst : HasId α) (x : α) (xs b : List α),
        @similarity_id α inst (x :: x :: xs) b =
            @similarity_id α inst (x :: xs) b
          ∧ @similarity_id α inst b (x :: x :: xs) =
            @similarity_id α inst b (x :: xs))
    ∧ similarity_id ([] : List Genre) ([] : List Genre) = F32.finite 0 := by
  refine ⟨?_, ?_, similarity_id_empty⟩
  · intro α inst a b
    unfold similarity_id jaccardSpec idSet
    by_cases h : (a.map HasId.id).toFinset ∪ (b.map HasId.id).toFinset = ∅
    · rw [if_pos h, if_pos h]
    · have hcard : (0 : ℚ) <
          (((a.map HasId.id).toFinset ∪ (b.map HasId.id).toFinset).card : ℚ) := by
        exact_mod_cast Finset.card_pos.mpr (Finset.nonempty_iff_ne_empty.mpr h)
      rw [if_neg h, if_neg h, F32.div_finite_of_ne (ne_of_gt hcard)]
  · intro α inst x xs b
    constructor <;>
      simp only [similarity_id, List.map_cons, List.toFinset_cons,
        Finset.insert_idem]

/-- C9 counterexample: the claim says a query on the empty catalogue fails
with a recoverable `IndexOutOfRangeError` and returns no results.  The CLI
indexes `movies[0]` unconditionally, which on the empty catalogue is an
out-of-bounds panic, not a recoverable error returning no results. -/
theorem c9_empty_catalogue_counterexample :
    mainRun [] = MainOutcome.panicked ∧
      MainOutcome.panicked ≠ MainOutcome.ok [] := by
  constructor
  · rfl
  · decide

/-- C9 amended: loading an empty record sequence succeeds and the numeric
bounds default to `(0, 0)` via `unwrap_or(0)`, but the CLI query on the
empty catalogue panics on the out-of-bounds reference index (the GUI renders
nothing for an empty catalogue and never issues a query); no recoverable
`IndexOutOfRangeError` exists in the code. -/
theorem c9_empty_catalogue_amended :
    minBudget [] = 0 ∧ maxBudget [] = 0 ∧
      mainRun [] = MainOutcome.panicked :=
  ⟨rfl, rfl, rfl⟩

/-- C10: two movies that agree on the six scored fields (budget, genres,
homepage, keywords, production companies, title) receive identical
similarity scores against any third movie and any bounds — the unscored
display fields never influence the score. -/
theorem c10_unscored_fields_irrelevant (x y z : Movie) (min_b max_b : ℕ)
    (h1 : x.budget = y.budget) (h2 : x.genres = y.genres)
    (h3 : x.homepage = y.homepage) (h4 : x.keywords = y.keywords)
    (h5 : x.production_companies = y.production_companies)
    (h6 : x.title = y.title) :
    Movie.similarity x z min_b max_b = Movie.similarity y z min_b max_b := by
  unfold Movie.similarity
  rw [h1, h2, h3, h4, h5, h6]

/-- C10 witness: `movieA2` differs from `movieA` in every unscored field;
their scores against `movieC` coincide. -/
theorem c10_unscored_witness :
    Movie.similarity movieA movieC 0 1 = Movie.similarity movieA2 movieC 0 1 :=
  c10_unscored_fields_irrelevant movieA movieA2 movieC 0 1 rfl rfl rfl rfl
    rfl rfl

end CBRMovie
